import Mathlib

/-!
Verification of the `archer` repository's core components against its
natural-language specification.

The development shallowly embeds the Python sources:
 * `src/comparator.py`   — the Architecture Comparator (`find_arch_diffs`),
 * `src/framework/extractor.py` — the Hierarchy Extractor (top-module
   detection and the JSON tree builder),
 * `src/archer.py`       — the Repair Orchestrator main loop.

JSON nodes are embedded as `JNode`; Python `dict.get(key, default)` access
is embedded by `Option` fields read through defaulting accessors.  The
recursive comparator walk is embedded with a fuel parameter (structural on
the fuel, hence executable in the kernel); `findArchDiffsF_fuel_eq` shows
the result is independent of the fuel once the fuel dominates the size of
the expected tree, and `find_arch_diffs` instantiates the fuel with that
size.  External effects of the orchestrator (subprocess calls, the repair
service, the filesystem) are embedded as oracle inputs, and the
orchestrator itself as a pure trace-producing function.
-/

namespace Archer

/-- A JSON hierarchy node as consumed by `comparator.find_arch_diffs`.
Scalar fields and the port list are `Option`s because the Python code reads
them with `dict.get` (a missing field is `none`); the `"Instances"` list is
read with `dict.get("Instances", [])`, under which a missing list is
indistinguishable from `[]`, so it is embedded as a plain list. -/
inductive JNode where
  | mk (moduleName? instanceName? filePath? : Option String)
       (port? : Option (List String)) (kids : List JNode)

/-- The `"Module_name"` field, as read by `node.get("Module_name")`-style
access without defaulting (used only through `modD` below). -/
def JNode.moduleName? : JNode → Option String
  | .mk m _ _ _ _ => m

/-- The `"Instance_name"` field without defaulting; this raw value is the
key used for the child maps in `find_arch_diffs`. -/
def JNode.instanceName? : JNode → Option String
  | .mk _ i _ _ _ => i

/-- The `"File_path"` field without defaulting. -/
def JNode.filePath? : JNode → Option String
  | .mk _ _ f _ _ => f

/-- The `"Port"` field without defaulting. -/
def JNode.port? : JNode → Option (List String)
  | .mk _ _ _ p _ => p

/-- The `"Instances"` list (`node.get("Instances", [])`). -/
def JNode.kids : JNode → List JNode
  | .mk _ _ _ _ cs => cs

/-- `node.get("Module_name", "")`. -/
def JNode.modD (n : JNode) : String := n.moduleName?.getD ""

/-- `node.get("Instance_name", "")`. -/
def JNode.instD (n : JNode) : String := n.instanceName?.getD ""

/-- `node.get("File_path", "")`. -/
def JNode.fileD (n : JNode) : String := n.filePath?.getD ""

/-- `node.get("Port", [])`. -/
def JNode.portD (n : JNode) : List String := n.port?.getD []

/-- Keep a character unless it is a space. -/
def notSpace (c : Char) : Bool := decide (c ≠ ' ')

/-- `comparator.normalize_port`: `port_str.replace(" ", "")`, i.e. drop
every space character. -/
def normalize_port (s : String) : String :=
  String.mk (s.data.filter notSpace)

/-- Lexicographic comparison of character lists by code point, the order
Python's `sorted` uses on strings.  Defined as an executable boolean so
concrete comparator runs evaluate in the kernel. -/
def charListLe : List Char → List Char → Bool
  | [], _ => true
  | _ :: _, [] => false
  | a :: as, b :: bs =>
    if a.toNat < b.toNat then true
    else if a.toNat = b.toNat then charListLe as bs
    else false

/-- Lexicographic order on strings by code point. -/
def strLeP (a b : String) : Prop := charListLe a.data b.data = true

instance strLeP.decidableRel : DecidableRel strLeP := by
  intro a b
  unfold strLeP
  infer_instance

theorem charListLe_total : ∀ l₁ l₂, charListLe l₁ l₂ = true ∨ charListLe l₂ l₁ = true := by
  intro l₁
  induction l₁ with
  | nil => intro l₂; left; rfl
  | cons a as ih =>
    intro l₂
    cases l₂ with
    | nil => right; rfl
    | cons b bs =>
      rcases Nat.lt_trichotomy a.toNat b.toNat with h | h | h
      · left
        simp [charListLe, h]
      · rcases ih bs with h2 | h2
        · left
          simp [charListLe, h, h2]
        · right
          simp [charListLe, h.symm, h2]
      · right
        simp [charListLe, h]

theorem charListLe_trans : ∀ l₁ l₂ l₃, charListLe l₁ l₂ = true → charListLe l₂ l₃ = true →
    charListLe l₁ l₃ = true := by
  intro l₁
  induction l₁ with
  | nil => intro l₂ l₃ _ _; rfl
  | cons a as ih =>
    intro l₂ l₃ h12 h23
    cases l₂ with
    | nil => simp [charListLe] at h12
    | cons b bs =>
      cases l₃ with
      | nil => simp [charListLe] at h23
      | cons c cs =>
        simp only [charListLe] at h12 h23 ⊢
        split at h12
        · rename_i hab
          split at h23
          · rename_i hbc
            simp [Nat.lt_trans hab hbc]
          · split at h23
            · rename_i hbc
              simp [hbc ▸ hab]
            · exact absurd h23 (by simp)
        · split at h12
          · rename_i hab
            split at h23
            · rename_i hbc
              simp [hab ▸ hbc]
            · split at h23
              · rename_i hbc
                simp only [hab, hbc, Nat.lt_irrefl, if_false, if_pos rfl]
                exact ih bs cs h12 h23
              · exact absurd h23 (by simp)
          · exact absurd h12 (by simp)

theorem charListLe_antisymm : ∀ l₁ l₂, charListLe l₁ l₂ = true → charListLe l₂ l₁ = true →
    l₁ = l₂ := by
  intro l₁
  induction l₁ with
  | nil =>
    intro l₂ _ h21
    cases l₂ with
    | nil => rfl
    | cons b bs => simp [charListLe] at h21
  | cons a as ih =>
    intro l₂ h12 h21
    cases l₂ with
    | nil => simp [charListLe] at h12
    | cons b bs =>
      simp only [charListLe] at h12 h21
      split at h12
      · rename_i hab
        simp [Nat.lt_asymm hab, Nat.ne_of_gt hab] at h21
      · split at h12
        · rename_i hab
          have hchar : a = b := by
            cases a
            cases b
            simp only [Char.toNat] at hab
            cases UInt32.toNat.inj hab
            rfl
          subst hchar
          simp only [Nat.lt_irrefl, if_false, if_pos rfl] at h21
          rw [ih bs h12 h21]
        · exact absurd h12 (by simp)

instance : IsTotal String strLeP :=
  ⟨fun a b => charListLe_total a.data b.data⟩

instance : IsTrans String strLeP :=
  ⟨fun a b c => charListLe_trans a.data b.data c.data⟩

instance : IsAntisymm String strLeP :=
  ⟨fun a b h1 h2 => by
    cases a with
    | mk da =>
      cases b with
      | mk db =>
        have : da = db := charListLe_antisymm da db h1 h2
        rw [this]⟩

/-- `sorted([normalize_port(p) for p in ports])`: normalize each entry and
sort lexicographically by code point. -/
def sortedNorm (ps : List String) : List String :=
  List.insertionSort strLeP (ps.map normalize_port)

/-- The normalized, sorted port list of a node (`s_ports_norm` /
`p_ports_norm` in `find_arch_diffs`). -/
def JNode.portsNorm (n : JNode) : List String := sortedNorm n.portD

/-- One side of a diff record (`{"Module_name": .., "Instance_name": ..,
"Port": ..}`).  `Instance_name` is an `Option` because the records emitted
for unmatched instances carry the raw child-map key, which is the Python
`None` when the child has no `"Instance_name"` field. -/
structure NodeSummary where
  moduleName : String
  instanceName : Option String
  ports : List String
deriving DecidableEq, Repr

/-- A diff-record side: either a node summary or the literal `"Missing"`
marker the comparator writes for an absent instance. -/
inductive Side where
  | summary (s : NodeSummary)
  | missing
deriving DecidableEq, Repr

/-- One entry of the `Diff_Arch` report: `{"file": .., "SPEC": ..,
"Parsed": ..}`. -/
structure DiffRecord where
  file : String
  spec : Side
  parsed : Side
deriving DecidableEq, Repr

/-- Lines 30-32 of `comparator.py`: the file a record emitted at the
current pair is tagged with — the parsed node's `File_path` if non-empty,
else the (truthy) parent file, else `"Top Level"`. -/
def resolveCurrentNodeFile (p : JNode) (parent_file : Option String) : String :=
  if p.fileD ≠ "" then p.fileD
  else match parent_file with
    | some f => if f ≠ "" then f else "Top Level"
    | none => "Top Level"

/-- The record emitted at a matched pair (lines 34-47 of `comparator.py`);
both sides carry the defaulted names and the original, unnormalized port
lists. -/
def pairRecord (s p : JNode) (parent_file : Option String) : DiffRecord :=
  { file := resolveCurrentNodeFile p parent_file
    spec := .summary ⟨s.modD, some s.instD, s.portD⟩
    parsed := .summary ⟨p.modD, some p.instD, p.portD⟩ }

/-- The (possibly empty) emission at the current pair: one record exactly
when the module names or the normalized sorted port lists differ. -/
def pairEmission (s p : JNode) (pf : Option String) : List DiffRecord :=
  if s.modD ≠ p.modD ∨ s.portsNorm ≠ p.portsNorm then [pairRecord s p pf] else []

/-- Lines 57-59 of `comparator.py`: the `current_file` passed to the
children — the parsed node's `File_path` if non-empty, else a file name
derived from a module name, else `"Unknown.v"`. -/
def childContext (s p : JNode) : String :=
  if p.fileD ≠ "" then p.fileD
  else if p.modD ≠ "" then p.modD ++ ".v"
  else if s.modD ≠ "" then s.modD ++ ".v"
  else "Unknown.v"

/-- The child-map key of a node: the raw `"Instance_name"` field. -/
def keyOf (c : JNode) : Option String := c.instanceName?

/-- Lookup in the Python dict comprehension `{c.get("Instance_name"): c
for c in children}`: duplicate keys are resolved last-writer-wins, so the
lookup returns the last child carrying the key. -/
def lastWithKey (k : Option String) (cs : List JNode) : Option JNode :=
  (cs.filter (fun c => decide (keyOf c = k))).getLast?

/-- The union `set(s_map.keys()) | set(p_map.keys())`, embedded as a
duplicate-free list.  Python iterates this set in an unspecified order; the
embedding fixes one enumeration, which the claims (all order-insensitive)
do not depend on. -/
def allKeys (sCs pCs : List JNode) : List (Option String) :=
  (sCs.map keyOf ++ pCs.map keyOf).dedup

/-- The record for an instance present only in the expected tree (lines
64-73): parsed side `"Missing"`, filed under the current file. -/
def missingParsedRecord (key : Option String) (sc : JNode) (file : String) : DiffRecord :=
  { file := file
    spec := .summary ⟨sc.modD, key, sc.portD⟩
    parsed := .missing }

/-- The record for an instance present only in the parsed tree (lines
74-86): spec side `"Missing"`, filed under
`child.get("File_path", current_file)` — note the default applies only
when the field is absent, not when it is empty. -/
def missingSpecRecord (key : Option String) (pc : JNode) (file : String) : DiffRecord :=
  { file := match pc.filePath? with
      | some f => f
      | none => file
    spec := .missing
    parsed := .summary ⟨pc.modD, key, pc.portD⟩ }

mutual

/-- Size of a node: one plus the sizes of its descendants.  Used as the
fuel bound for the comparator recursion. -/
def JNode.sz : JNode → Nat
  | .mk _ _ _ _ cs => 1 + szKids cs

/-- Total size of a list of nodes. -/
def szKids : List JNode → Nat
  | [] => 0
  | c :: cs => JNode.sz c + szKids cs

end

/-- Fuel-indexed embedding of `comparator.find_arch_diffs`.  One unit of
fuel is spent per tree level, so any fuel at least `sizeOf` the expected
node computes the Python function's result (`findArchDiffsF_fuel_eq`). -/
def findArchDiffsF : Nat → JNode → JNode → Option String → List DiffRecord
  | 0, _, _, _ => []
  | fuel+1, s, p, pf =>
    pairEmission s p pf ++
      (allKeys s.kids p.kids).foldr
        (fun key acc =>
          (match lastWithKey key s.kids, lastWithKey key p.kids with
           | some sc, some pc => findArchDiffsF fuel sc pc (some (childContext s p))
           | some sc, none => [missingParsedRecord key sc (childContext s p)]
           | none, some pc => [missingSpecRecord key pc (childContext s p)]
           | none, none => []) ++ acc)
        []

/-- The embedded `find_arch_diffs`: the Python recursion, which always
terminates on (finite) trees, is recovered by instantiating the fuel with
a dominating bound. -/
def find_arch_diffs (s p : JNode) (pf : Option String) : List DiffRecord :=
  findArchDiffsF s.sz s p pf

/-- The records the loop body of `find_arch_diffs` contributes for one key
of the union: recurse when the key is in both maps, emit a single
missing-side record when it is in exactly one. -/
def keyDiffs (s p : JNode) (key : Option String) : List DiffRecord :=
  match lastWithKey key s.kids, lastWithKey key p.kids with
  | some sc, some pc => find_arch_diffs sc pc (some (childContext s p))
  | some sc, none => [missingParsedRecord key sc (childContext s p)]
  | none, some pc => [missingSpecRecord key pc (childContext s p)]
  | none, none => []

theorem JNode.one_le_sz (n : JNode) : 1 ≤ n.sz := by
  cases n with
  | mk a b c d e =>
    rw [JNode.sz]
    omega

theorem le_szKids_of_mem {c : JNode} {cs : List JNode} (h : c ∈ cs) :
    c.sz ≤ szKids cs := by
  induction cs with
  | nil => cases h
  | cons x xs ih =>
    rw [szKids]
    rcases List.mem_cons.mp h with h1 | h1
    · subst h1
      omega
    · have := ih h1
      omega

theorem sz_lt_of_mem_kids {c n : JNode} (h : c ∈ n.kids) :
    c.sz < n.sz := by
  cases n with
  | mk a b cf d e =>
    have h1 : c.sz ≤ szKids e := le_szKids_of_mem h
    rw [JNode.sz]
    omega

theorem mem_of_getLast? {α : Type} {l : List α} {a : α}
    (h : l.getLast? = some a) : a ∈ l := by
  induction l with
  | nil => simp [List.getLast?] at h
  | cons x xs ih =>
    cases xs with
    | nil =>
      simp [List.getLast?] at h
      simp [h]
    | cons y ys =>
      rw [List.getLast?_cons_cons] at h
      exact List.mem_cons_of_mem _ (ih h)

theorem lastWithKey_mem {k : Option String} {cs : List JNode} {c : JNode}
    (h : lastWithKey k cs = some c) : c ∈ cs := by
  have hmem := mem_of_getLast? h
  exact (List.mem_filter.mp hmem).1

theorem lastWithKey_key {k : Option String} {cs : List JNode} {c : JNode}
    (h : lastWithKey k cs = some c) : keyOf c = k := by
  have hmem := mem_of_getLast? h
  have := (List.mem_filter.mp hmem).2
  exact of_decide_eq_true this

theorem foldrCongr {α β : Type} (f g : α → β → β) (l : List α) (init : β)
    (h : ∀ a ∈ l, ∀ acc, f a acc = g a acc) :
    List.foldr f init l = List.foldr g init l := by
  induction l with
  | nil => rfl
  | cons x xs ih =>
    simp only [List.foldr_cons]
    rw [h x (List.mem_cons_self x xs), ih (fun a ha acc => h a (List.mem_cons_of_mem _ ha) acc)]

/-- The fuel is irrelevant once it dominates the expected tree's size. -/
theorem findArchDiffsF_fuel_eq :
    ∀ f₁ f₂ (s p : JNode) (pf : Option String), s.sz ≤ f₁ → s.sz ≤ f₂ →
      findArchDiffsF f₁ s p pf = findArchDiffsF f₂ s p pf := by
  intro f₁
  induction f₁ with
  | zero =>
    intro f₂ s p pf h₁ h₂
    have := s.one_le_sz
    omega
  | succ a ih =>
    intro f₂ s p pf h₁ h₂
    cases f₂ with
    | zero =>
      have := s.one_le_sz
      omega
    | succ b =>
      show pairEmission s p pf ++ _ = pairEmission s p pf ++ _
      congr 1
      apply foldrCongr
      intro key _ acc
      congr 1
      cases hs : lastWithKey key s.kids with
      | none => cases lastWithKey key p.kids <;> rfl
      | some sc =>
        cases hp : lastWithKey key p.kids with
        | none => rfl
        | some pc =>
          have hlt : sc.sz < s.sz :=
            sz_lt_of_mem_kids (lastWithKey_mem hs)
          exact ih b sc pc (some (childContext s p)) (by omega) (by omega)

/-- Unfolding equation for the embedded comparator: the emission at the
current pair followed by the per-key contributions over the union of the
child keys. -/
theorem find_arch_diffs_unfold (s p : JNode) (pf : Option String) :
    find_arch_diffs s p pf =
      pairEmission s p pf ++
        (allKeys s.kids p.kids).foldr (fun key acc => keyDiffs s p key ++ acc) [] := by
  show findArchDiffsF s.sz s p pf = _
  obtain ⟨a, ha⟩ : ∃ a, s.sz = a + 1 := by
    have := s.one_le_sz
    exact ⟨s.sz - 1, by omega⟩
  rw [ha]
  show pairEmission s p pf ++ _ = pairEmission s p pf ++ _
  congr 1
  apply foldrCongr
  intro key _ acc
  congr 1
  unfold keyDiffs
  cases hs : lastWithKey key s.kids with
  | none => cases lastWithKey key p.kids <;> rfl
  | some sc =>
    cases hp : lastWithKey key p.kids with
    | none => rfl
    | some pc =>
      have hlt : sc.sz < s.sz :=
        sz_lt_of_mem_kids (lastWithKey_mem hs)
      exact findArchDiffsF_fuel_eq a sc.sz sc pc _ (by omega) (by omega)


/-! ### Structural equality of tree models (the spec's no-difference condition) -/

/-- Fuel-indexed structural match of two tree models, following the spec's
"no structural differences" condition: same (defaulted) module names, same
normalized port multisets, same child instance-name key sets, and
recursively matching children at every common key, paired exactly as the
comparator pairs them. -/
def treesMatchF : Nat → JNode → JNode → Bool
  | 0, _, _ => false
  | fuel+1, s, p =>
    decide (s.modD = p.modD) &&
    decide (List.Perm (s.portD.map normalize_port) (p.portD.map normalize_port)) &&
    (s.kids.map keyOf).all (fun k => decide (k ∈ p.kids.map keyOf)) &&
    (p.kids.map keyOf).all (fun k => decide (k ∈ s.kids.map keyOf)) &&
    (allKeys s.kids p.kids).all (fun k =>
      match lastWithKey k s.kids, lastWithKey k p.kids with
      | some sc, some pc => treesMatchF fuel sc pc
      | _, _ => true)

/-- Two tree models are structurally equal in the spec's sense. -/
def treesMatch (s p : JNode) : Prop := treesMatchF s.sz s p = true

theorem treesMatchF_succ (fuel : Nat) (s p : JNode) :
    treesMatchF (fuel+1) s p =
      (decide (s.modD = p.modD) &&
       decide (List.Perm (s.portD.map normalize_port) (p.portD.map normalize_port)) &&
       (s.kids.map keyOf).all (fun k => decide (k ∈ p.kids.map keyOf)) &&
       (p.kids.map keyOf).all (fun k => decide (k ∈ s.kids.map keyOf)) &&
       (allKeys s.kids p.kids).all (fun k =>
         match lastWithKey k s.kids, lastWithKey k p.kids with
         | some sc, some pc => treesMatchF fuel sc pc
         | _, _ => true)) := rfl

theorem findArchDiffsF_succ (fuel : Nat) (s p : JNode) (pf : Option String) :
    findArchDiffsF (fuel+1) s p pf =
      pairEmission s p pf ++
        (allKeys s.kids p.kids).foldr
          (fun key acc =>
            (match lastWithKey key s.kids, lastWithKey key p.kids with
             | some sc, some pc => findArchDiffsF fuel sc pc (some (childContext s p))
             | some sc, none => [missingParsedRecord key sc (childContext s p)]
             | none, some pc => [missingSpecRecord key pc (childContext s p)]
             | none, none => []) ++ acc)
          [] := rfl

theorem allCongr {α : Type} (f g : α → Bool) (l : List α)
    (h : ∀ a ∈ l, f a = g a) : l.all f = l.all g := by
  induction l with
  | nil => rfl
  | cons x xs ih =>
    simp only [List.all_cons]
    rw [h x (List.mem_cons_self x xs), ih (fun a ha => h a (List.mem_cons_of_mem _ ha))]

theorem treesMatchF_fuel_eq :
    ∀ f₁ f₂ (s p : JNode), s.sz ≤ f₁ → s.sz ≤ f₂ →
      treesMatchF f₁ s p = treesMatchF f₂ s p := by
  intro f₁
  induction f₁ with
  | zero =>
    intro f₂ s p h₁ h₂
    have := s.one_le_sz
    omega
  | succ a ih =>
    intro f₂ s p h₁ h₂
    cases f₂ with
    | zero =>
      have := s.one_le_sz
      omega
    | succ b =>
      rw [treesMatchF_succ, treesMatchF_succ]
      congr 1
      apply allCongr
      intro k _
      cases hs : lastWithKey k s.kids with
      | none => cases lastWithKey k p.kids <;> rfl
      | some sc =>
        cases hp : lastWithKey k p.kids with
        | none => rfl
        | some pc =>
          have hlt : sc.sz < s.sz :=
            sz_lt_of_mem_kids (lastWithKey_mem hs)
          exact ih b sc pc (by omega) (by omega)

/-- Sorted normalized port lists are equal exactly when the normalized port
multisets agree (the spec's order-insensitive, duplicate-preserving port
comparison). -/
theorem sortedNorm_eq_iff (ps qs : List String) :
    sortedNorm ps = sortedNorm qs ↔
      List.Perm (ps.map normalize_port) (qs.map normalize_port) := by
  constructor
  · intro h
    have h1 : List.Perm (ps.map normalize_port) (sortedNorm ps) :=
      (List.perm_insertionSort strLeP _).symm
    have h2 : List.Perm (sortedNorm qs) (qs.map normalize_port) :=
      List.perm_insertionSort strLeP _
    rw [h] at h1
    exact h1.trans h2
  · intro h
    apply List.eq_of_perm_of_sorted (r := strLeP)
    · exact (List.perm_insertionSort strLeP _).trans
        (h.trans (List.perm_insertionSort strLeP _).symm)
    · exact List.sorted_insertionSort strLeP _
    · exact List.sorted_insertionSort strLeP _

theorem lastWithKey_isSome_iff (k : Option String) (cs : List JNode) :
    (lastWithKey k cs).isSome ↔ k ∈ cs.map keyOf := by
  unfold lastWithKey
  rw [List.getLast?_isSome]
  constructor
  · intro h
    rcases List.exists_mem_of_ne_nil _ h with ⟨c, hc⟩
    have := List.mem_filter.mp hc
    exact List.mem_map.mpr ⟨c, this.1, of_decide_eq_true this.2⟩
  · intro h
    rcases List.mem_map.mp h with ⟨c, hc, hk⟩
    intro hnil
    have : c ∈ cs.filter (fun c => decide (keyOf c = k)) :=
      List.mem_filter.mpr ⟨hc, decide_eq_true hk⟩
    rw [hnil] at this
    cases this

theorem mem_allKeys_iff (k : Option String) (sCs pCs : List JNode) :
    k ∈ allKeys sCs pCs ↔ k ∈ sCs.map keyOf ∨ k ∈ pCs.map keyOf := by
  unfold allKeys
  rw [List.mem_dedup, List.mem_append]

theorem allKeys_nodup (sCs pCs : List JNode) : (allKeys sCs pCs).Nodup :=
  List.nodup_dedup _

theorem foldr_append_eq_nil_iff {α β : Type} (g : α → List β) (l : List α) :
    l.foldr (fun a acc => g a ++ acc) [] = [] ↔ ∀ a ∈ l, g a = [] := by
  induction l with
  | nil => simp
  | cons x xs ih =>
    simp [ih]

/-- Core characterization: the comparator report is empty exactly when the
two trees structurally match. -/
theorem findArchDiffsF_eq_nil_iff :
    ∀ fuel (s p : JNode) (pf : Option String), s.sz ≤ fuel →
      (findArchDiffsF fuel s p pf = [] ↔ treesMatchF fuel s p = true) := by
  intro fuel
  induction fuel with
  | zero =>
    intro s p pf h
    have := s.one_le_sz
    omega
  | succ a ih =>
    intro s p pf h
    rw [findArchDiffsF_succ, treesMatchF_succ, List.append_eq_nil]
    simp only [Bool.and_eq_true, decide_eq_true_eq, List.all_eq_true]
    constructor
    · rintro ⟨hemit, hfold⟩
      have hkeys := (foldr_append_eq_nil_iff _ _).mp hfold
      have hcond : s.modD = p.modD ∧ s.portsNorm = p.portsNorm := by
        by_contra hc
        have hne : s.modD ≠ p.modD ∨ s.portsNorm ≠ p.portsNorm := by tauto
        simp [pairEmission, hne] at hemit
      refine ⟨⟨⟨⟨hcond.1, ?_⟩, ?_⟩, ?_⟩, ?_⟩
      · exact (sortedNorm_eq_iff _ _).mp hcond.2
      · intro k hk
        have hks : k ∈ allKeys s.kids p.kids :=
          (mem_allKeys_iff _ _ _).mpr (Or.inl hk)
        have hval := hkeys k hks
        cases hs : lastWithKey k s.kids with
        | none =>
          have := (lastWithKey_isSome_iff k s.kids).mpr hk
          rw [hs] at this
          cases this
        | some sc =>
          cases hp : lastWithKey k p.kids with
          | none =>
            rw [hs, hp] at hval
            cases hval
          | some pc =>
            exact (lastWithKey_isSome_iff k p.kids).mp (by rw [hp]; rfl)
      · intro k hk
        have hks : k ∈ allKeys s.kids p.kids :=
          (mem_allKeys_iff _ _ _).mpr (Or.inr hk)
        have hval := hkeys k hks
        cases hs : lastWithKey k s.kids with
        | none =>
          cases hp : lastWithKey k p.kids with
          | none =>
            have := (lastWithKey_isSome_iff k p.kids).mpr hk
            rw [hp] at this
            cases this
          | some pc =>
            rw [hs, hp] at hval
            cases hval
        | some sc =>
          exact (lastWithKey_isSome_iff k s.kids).mp (by rw [hs]; rfl)
      · intro k hk
        have hval := hkeys k hk
        cases hs : lastWithKey k s.kids with
        | none => cases lastWithKey k p.kids <;> rfl
        | some sc =>
          cases hp : lastWithKey k p.kids with
          | none => rfl
          | some pc =>
            rw [hs, hp] at hval
            have hlt : sc.sz < s.sz := sz_lt_of_mem_kids (lastWithKey_mem hs)
            exact (ih sc pc (some (childContext s p)) (by omega)).mp hval
    · rintro ⟨⟨⟨⟨hmod, hperm⟩, hsk⟩, hpk⟩, hrec⟩
      constructor
      · have hports : s.portsNorm = p.portsNorm :=
          (sortedNorm_eq_iff _ _).mpr hperm
        simp [pairEmission, hmod, hports]
      · rw [foldr_append_eq_nil_iff]
        intro k hk
        cases hs : lastWithKey k s.kids with
        | none =>
          cases hp : lastWithKey k p.kids with
          | none => rfl
          | some pc =>
            have hkp : k ∈ p.kids.map keyOf :=
              (lastWithKey_isSome_iff k p.kids).mp (by rw [hp]; rfl)
            have hks : k ∈ s.kids.map keyOf := hpk k hkp
            have := (lastWithKey_isSome_iff k s.kids).mpr hks
            rw [hs] at this
            cases this
        | some sc =>
          cases hp : lastWithKey k p.kids with
          | none =>
            have hks : k ∈ s.kids.map keyOf :=
              (lastWithKey_isSome_iff k s.kids).mp (by rw [hs]; rfl)
            have hkp : k ∈ p.kids.map keyOf := hsk k hks
            have := (lastWithKey_isSome_iff k p.kids).mpr hkp
            rw [hp] at this
            cases this
          | some pc =>
            have hval := hrec k hk
            rw [hs, hp] at hval
            have hlt : sc.sz < s.sz := sz_lt_of_mem_kids (lastWithKey_mem hs)
            exact (ih sc pc (some (childContext s p)) (by omega)).mpr hval

/-- Report emptiness for the wrapper function. -/
theorem find_arch_diffs_eq_nil_iff (s p : JNode) (pf : Option String) :
    find_arch_diffs s p pf = [] ↔ treesMatch s p :=
  findArchDiffsF_eq_nil_iff s.sz s p pf (Nat.le_refl _)

instance treesMatch.decidable (s p : JNode) : Decidable (treesMatch s p) := by
  unfold treesMatch
  infer_instance

/-! ### Claim C1 -/

/-- Claim C1: at every pair the comparator matches (the two roots, or
children paired by instance-name key — i.e. any arguments of a recursive
call), exactly one record is emitted at that pair iff the module names or
the normalized sorted port lists differ (the emission is `[pairRecord]` or
`[]` in front of the children's contributions); consequently the report is
empty iff the trees structurally match (same module names, same normalized
port multisets, same instance-name key sets at every level), and a module
name mismatch alone, or a port mismatch alone, already makes the report
non-empty. -/
theorem claim_C1_pair_emission_and_empty_report (s p : JNode) (pf : Option String) :
    (find_arch_diffs s p pf = [] ↔ treesMatch s p)
  ∧ (find_arch_diffs s p pf =
      pairEmission s p pf ++
        (allKeys s.kids p.kids).foldr (fun key acc => keyDiffs s p key ++ acc) [])
  ∧ (pairEmission s p pf =
      if s.modD ≠ p.modD ∨ s.portsNorm ≠ p.portsNorm then [pairRecord s p pf] else [])
  ∧ (s.modD ≠ p.modD → find_arch_diffs s p pf ≠ [])
  ∧ (s.portsNorm ≠ p.portsNorm → find_arch_diffs s p pf ≠ []) := by
  refine ⟨find_arch_diffs_eq_nil_iff s p pf, find_arch_diffs_unfold s p pf, rfl, ?_, ?_⟩
  · intro hne hnil
    rw [find_arch_diffs_unfold] at hnil
    simp [pairEmission, hne] at hnil
  · intro hne hnil
    rw [find_arch_diffs_unfold] at hnil
    simp [pairEmission, hne] at hnil

/-- Witness for C1: a module-name-only mismatch and a port-only mismatch
each produce a non-empty report; a matching pair produces an empty one. -/
theorem claim_C1_witness :
    find_arch_diffs (JNode.mk (some "A") (some "Top") none (some ["p"]) [])
        (JNode.mk (some "B") (some "Top") none (some ["p"]) []) none ≠ []
  ∧ find_arch_diffs (JNode.mk (some "A") (some "Top") none (some ["p"]) [])
        (JNode.mk (some "A") (some "Top") none (some ["q"]) []) none ≠ []
  ∧ find_arch_diffs (JNode.mk (some "A") (some "Top") none (some ["p"]) [])
        (JNode.mk (some "A") (some "Top") none (some ["p"]) []) none = [] :=
  ⟨(claim_C1_pair_emission_and_empty_report _ _ none).2.2.2.1 (by decide),
   (claim_C1_pair_emission_and_empty_report _ _ none).2.2.2.2 (by decide),
   (claim_C1_pair_emission_and_empty_report _ _ none).1.mpr (by decide)⟩

/-! ### Claim C10 -/

/-- Claim C10: the instance names play no role in the emission condition at
a matched pair — whenever the module names and the normalized sorted port
lists agree, no record is emitted at that pair (the report consists only of
the children's contributions), regardless of the two `Instance_name`
fields. -/
theorem claim_C10_instance_name_irrelevant (s p : JNode) (pf : Option String)
    (hmod : s.modD = p.modD) (hports : s.portsNorm = p.portsNorm) :
    find_arch_diffs s p pf =
      (allKeys s.kids p.kids).foldr (fun key acc => keyDiffs s p key ++ acc) [] := by
  rw [find_arch_diffs_unfold]
  simp [pairEmission, hmod, hports]

/-- Witness for C10: two leaves that differ only in `Instance_name` yield
an empty report. -/
theorem claim_C10_witness :
    find_arch_diffs (JNode.mk (some "m") (some "u1") none (some ["p"]) [])
      (JNode.mk (some "m") (some "u2") none (some ["p"]) []) none = [] := by
  have h := claim_C10_instance_name_irrelevant
    (JNode.mk (some "m") (some "u1") none (some ["p"]) [])
    (JNode.mk (some "m") (some "u2") none (some ["p"]) []) none (by decide) (by decide)
  exact h.trans rfl

/-! ### Claim C2 -/

/-- Two character lists are related exactly when one is obtained from the
other by inserting or removing space characters: equal characters are kept
in step, and a space may be consumed on either side. -/
inductive SpaceRel : List Char → List Char → Prop
  | nil : SpaceRel [] []
  | cons (c : Char) (h : c ≠ ' ') {l₁ l₂ : List Char} :
      SpaceRel l₁ l₂ → SpaceRel (c :: l₁) (c :: l₂)
  | left {l₁ l₂ : List Char} : SpaceRel l₁ l₂ → SpaceRel (' ' :: l₁) l₂
  | right {l₁ l₂ : List Char} : SpaceRel l₁ l₂ → SpaceRel l₁ (' ' :: l₂)

theorem notSpace_of_ne {c : Char} (h : c ≠ ' ') : notSpace c = true := by
  simp [notSpace, h]

theorem notSpace_space : notSpace ' ' = false := by
  simp [notSpace]

theorem spaceRel_filter {l₁ l₂ : List Char} (h : SpaceRel l₁ l₂) :
    l₁.filter notSpace = l₂.filter notSpace := by
  induction h with
  | nil => rfl
  | cons c hc _ ih =>
    rw [List.filter_cons_of_pos (notSpace_of_ne hc),
        List.filter_cons_of_pos (notSpace_of_ne hc), ih]
  | left _ ih =>
    rw [List.filter_cons_of_neg (by rw [notSpace_space]; exact Bool.false_ne_true), ih]
  | right _ ih =>
    rw [List.filter_cons_of_neg (by rw [notSpace_space]; exact Bool.false_ne_true), ih]

theorem spaceRel_of_filter_eq_aux :
    ∀ n l₁ l₂, l₁.length + l₂.length ≤ n →
      l₁.filter notSpace = l₂.filter notSpace →
      SpaceRel l₁ l₂ := by
  intro n
  induction n with
  | zero =>
    intro l₁ l₂ hlen _
    cases l₁ with
    | nil =>
      cases l₂ with
      | nil => exact SpaceRel.nil
      | cons b bs => simp at hlen
    | cons a as => simp at hlen
  | succ m ih =>
    intro l₁ l₂ hlen hf
    cases l₁ with
    | nil =>
      cases l₂ with
      | nil => exact SpaceRel.nil
      | cons b bs =>
        by_cases hb : b = ' '
        · subst hb
          apply SpaceRel.right
          apply ih [] bs (by simp at hlen ⊢; omega)
          rw [List.filter_cons_of_neg
            (by rw [notSpace_space]; exact Bool.false_ne_true)] at hf
          exact hf
        · rw [List.filter_nil, List.filter_cons_of_pos (notSpace_of_ne hb)] at hf
          cases hf
    | cons a as =>
      by_cases ha : a = ' '
      · subst ha
        apply SpaceRel.left
        apply ih as l₂ (by simp at hlen ⊢; omega)
        rw [List.filter_cons_of_neg
          (by rw [notSpace_space]; exact Bool.false_ne_true)] at hf
        exact hf
      · cases l₂ with
        | nil =>
          rw [List.filter_nil, List.filter_cons_of_pos (notSpace_of_ne ha)] at hf
          cases hf
        | cons b bs =>
          by_cases hb : b = ' '
          · subst hb
            apply SpaceRel.right
            apply ih (a :: as) bs (by simp at hlen ⊢; omega)
            have hfb : List.filter notSpace (' ' :: bs) = List.filter notSpace bs :=
              List.filter_cons_of_neg
                (by rw [notSpace_space]; exact Bool.false_ne_true)
            rw [hfb] at hf
            exact hf
          · rw [List.filter_cons_of_pos (notSpace_of_ne ha),
                List.filter_cons_of_pos (notSpace_of_ne hb)] at hf
            injection hf with hab hf
            subst hab
            exact SpaceRel.cons a ha (ih as bs (by simp at hlen ⊢; omega) hf)

/-- `SpaceRel` captures exactly "equal after removing all spaces". -/
theorem spaceRel_iff (l₁ l₂ : List Char) :
    SpaceRel l₁ l₂ ↔ l₁.filter notSpace = l₂.filter notSpace := by
  constructor
  · exact spaceRel_filter
  · exact spaceRel_of_filter_eq_aux (l₁.length + l₂.length) l₁ l₂ (Nat.le_refl _)

/-- The port-list transformation claim C2 allows: a permutation followed by
insertion/removal of spaces inside individual entries. -/
def portsEquiv (xs ys : List String) : Prop :=
  ∃ mid, List.Perm xs mid ∧ List.Forall₂ (fun a b => SpaceRel a.data b.data) mid ys

/-- Replace a node's port list, leaving everything else unchanged. -/
def JNode.withPorts : JNode → List String → JNode
  | .mk m i f _ cs, qs => .mk m i f (some qs) cs

theorem withPorts_modD (n : JNode) (qs : List String) : (n.withPorts qs).modD = n.modD := by
  cases n
  rfl

theorem withPorts_fileD (n : JNode) (qs : List String) : (n.withPorts qs).fileD = n.fileD := by
  cases n
  rfl

theorem withPorts_kids (n : JNode) (qs : List String) : (n.withPorts qs).kids = n.kids := by
  cases n
  rfl

theorem withPorts_portD (n : JNode) (qs : List String) : (n.withPorts qs).portD = qs := by
  cases n
  rfl

theorem normalize_port_of_spaceRel {a b : String} (h : SpaceRel a.data b.data) :
    normalize_port a = normalize_port b := by
  unfold normalize_port
  rw [spaceRel_filter h]

theorem map_normalize_of_forall₂ {mid ys : List String}
    (h : List.Forall₂ (fun a b => SpaceRel a.data b.data) mid ys) :
    mid.map normalize_port = ys.map normalize_port := by
  induction h with
  | nil => rfl
  | cons hab _ ih =>
    simp only [List.map_cons]
    rw [normalize_port_of_spaceRel hab, ih]

theorem sortedNorm_of_portsEquiv {xs ys : List String} (h : portsEquiv xs ys) :
    sortedNorm xs = sortedNorm ys := by
  rcases h with ⟨mid, hperm, hsp⟩
  have h1 : sortedNorm xs = sortedNorm mid :=
    (sortedNorm_eq_iff _ _).mpr (hperm.map normalize_port)
  rw [h1]
  unfold sortedNorm
  rw [map_normalize_of_forall₂ hsp]

theorem childContext_withPorts (s p : JNode) (ss qs : List String) :
    childContext (s.withPorts ss) (p.withPorts qs) = childContext s p := by
  unfold childContext
  rw [withPorts_modD, withPorts_modD, withPorts_fileD]

/-- Claim C2: port comparison is whitespace- and order-insensitive.
Replacing either node's port list by a permutation of it with spaces
inserted or removed inside individual entries leaves the normalized sorted
port lists unchanged, hence changes neither whether a record is emitted at
that pair nor whether the whole report is empty. -/
theorem claim_C2_ports_whitespace_order_insensitive
    (s p : JNode) (pf : Option String) (ss qs : List String)
    (hs : portsEquiv s.portD ss) (hp : portsEquiv p.portD qs) :
    ((s.withPorts ss).portsNorm = s.portsNorm ∧ (p.withPorts qs).portsNorm = p.portsNorm)
  ∧ (pairEmission (s.withPorts ss) (p.withPorts qs) pf = [] ↔ pairEmission s p pf = [])
  ∧ (find_arch_diffs (s.withPorts ss) (p.withPorts qs) pf = [] ↔
       find_arch_diffs s p pf = []) := by
  have hsn : (s.withPorts ss).portsNorm = s.portsNorm := by
    unfold JNode.portsNorm
    rw [withPorts_portD]
    exact (sortedNorm_of_portsEquiv hs).symm
  have hpn : (p.withPorts qs).portsNorm = p.portsNorm := by
    unfold JNode.portsNorm
    rw [withPorts_portD]
    exact (sortedNorm_of_portsEquiv hp).symm
  have hcond : ((s.withPorts ss).modD ≠ (p.withPorts qs).modD ∨
      (s.withPorts ss).portsNorm ≠ (p.withPorts qs).portsNorm) ↔
      (s.modD ≠ p.modD ∨ s.portsNorm ≠ p.portsNorm) := by
    rw [withPorts_modD, withPorts_modD, hsn, hpn]
  refine ⟨⟨hsn, hpn⟩, ?_, ?_⟩
  · unfold pairEmission
    by_cases h : s.modD ≠ p.modD ∨ s.portsNorm ≠ p.portsNorm
    · rw [if_pos h, if_pos (hcond.mpr h)]
      simp
    · rw [if_neg h, if_neg (fun hc => h (hcond.mp hc))]
  · rw [find_arch_diffs_unfold, find_arch_diffs_unfold, List.append_eq_nil,
        List.append_eq_nil]
    have hfold :
        (allKeys (s.withPorts ss).kids (p.withPorts qs).kids).foldr
            (fun key acc => keyDiffs (s.withPorts ss) (p.withPorts qs) key ++ acc) [] =
          (allKeys s.kids p.kids).foldr (fun key acc => keyDiffs s p key ++ acc) [] := by
      rw [withPorts_kids, withPorts_kids]
      apply foldrCongr
      intro k _ acc
      congr 1
      unfold keyDiffs
      rw [withPorts_kids, withPorts_kids, childContext_withPorts]
    rw [hfold]
    unfold pairEmission
    by_cases h : s.modD ≠ p.modD ∨ s.portsNorm ≠ p.portsNorm
    · rw [if_pos h, if_pos (hcond.mpr h)]
      simp
    · rw [if_neg h, if_neg (fun hc => h (hcond.mp hc))]

/-- Witness for C2, on the spec's own example: ports `["a : x", "b : y"]`
against `["b:y", "a:x"]` at otherwise identical nodes yield no diff. -/
theorem claim_C2_witness :
    find_arch_diffs (JNode.mk (some "m") (some "Top") none (some ["a : x", "b : y"]) [])
      (JNode.mk (some "m") (some "Top") none (some ["b:y", "a:x"]) []) none = [] := by
  have hs : portsEquiv (JNode.mk (some "m") (some "Top") none
      (some ["a : x", "b : y"]) []).portD ["a : x", "b : y"] :=
    ⟨["a : x", "b : y"], List.Perm.refl _, by
      refine List.Forall₂.cons ?_ (List.Forall₂.cons ?_ List.Forall₂.nil) <;>
        exact (spaceRel_iff _ _).mpr (by decide)⟩
  have hp : portsEquiv (JNode.mk (some "m") (some "Top") none
      (some ["a : x", "b : y"]) []).portD ["b:y", "a:x"] :=
    ⟨["b : y", "a : x"], by decide, by
      refine List.Forall₂.cons ?_ (List.Forall₂.cons ?_ List.Forall₂.nil) <;>
        exact (spaceRel_iff _ _).mpr (by decide)⟩
  have h := (claim_C2_ports_whitespace_order_insensitive
    (JNode.mk (some "m") (some "Top") none (some ["a : x", "b : y"]) [])
    (JNode.mk (some "m") (some "Top") none (some ["a : x", "b : y"]) [])
    none ["a : x", "b : y"] ["b:y", "a:x"] hs hp).2.2
  exact h.mpr (by decide)

/-! ### Claim C3 -/

/-- Replace a node's child list, leaving everything else unchanged (used to
state that a missing instance's record does not depend on its subtree). -/
def JNode.withKids : JNode → List JNode → JNode
  | .mk m i f pt _, cs => .mk m i f pt cs

/-- Claim C3: the report decomposes as the pair emission followed by one
contribution per key of the (duplicate-free) union of child keys; a key
present only in the expected children contributes exactly the one record
whose parsed side is the `Missing` marker, a key present only in the parsed
children contributes exactly the one record whose spec side is the
`Missing` marker, and in both cases the record is independent of the
missing instance's subtree — the comparator does not recurse into it. -/
theorem claim_C3_missing_instances (s p : JNode) (pf : Option String) (key : Option String) :
    (find_arch_diffs s p pf =
       pairEmission s p pf ++
         (allKeys s.kids p.kids).foldr (fun k acc => keyDiffs s p k ++ acc) [])
  ∧ (allKeys s.kids p.kids).Nodup
  ∧ (∀ sc, lastWithKey key s.kids = some sc → lastWithKey key p.kids = none →
       keyDiffs s p key = [missingParsedRecord key sc (childContext s p)]
       ∧ (missingParsedRecord key sc (childContext s p)).parsed = Side.missing
       ∧ ∀ cs₂ file, missingParsedRecord key (sc.withKids cs₂) file =
           missingParsedRecord key sc file)
  ∧ (∀ pc, lastWithKey key s.kids = none → lastWithKey key p.kids = some pc →
       keyDiffs s p key = [missingSpecRecord key pc (childContext s p)]
       ∧ (missingSpecRecord key pc (childContext s p)).spec = Side.missing
       ∧ ∀ cs₂ file, missingSpecRecord key (pc.withKids cs₂) file =
           missingSpecRecord key pc file) := by
  refine ⟨find_arch_diffs_unfold s p pf, allKeys_nodup _ _, ?_, ?_⟩
  · intro sc hs hp
    refine ⟨?_, rfl, ?_⟩
    · unfold keyDiffs
      rw [hs, hp]
    · intro cs₂ file
      cases sc
      rfl
  · intro pc hs hp
    refine ⟨?_, rfl, ?_⟩
    · unfold keyDiffs
      rw [hs, hp]
    · intro cs₂ file
      cases pc
      rfl

/-- Witness for C3: a child present only in the expected tree and a child
present only in the parsed tree each yield exactly one record with the
appropriate `Missing` side. -/
theorem claim_C3_witness :
    keyDiffs (JNode.mk (some "t") (some "Top") (some "t.v") (some [])
        [JNode.mk (some "a") (some "u1") none (some ["p"]) []])
      (JNode.mk (some "t") (some "Top") (some "t.v") (some [])
        [JNode.mk (some "b") (some "u2") none (some ["q"]) []])
      (some "u1") =
        [⟨"t.v", Side.summary ⟨"a", some "u1", ["p"]⟩, Side.missing⟩]
  ∧ keyDiffs (JNode.mk (some "t") (some "Top") (some "t.v") (some [])
        [JNode.mk (some "a") (some "u1") none (some ["p"]) []])
      (JNode.mk (some "t") (some "Top") (some "t.v") (some [])
        [JNode.mk (some "b") (some "u2") none (some ["q"]) []])
      (some "u2") =
        [⟨"t.v", Side.missing, Side.summary ⟨"b", some "u2", ["q"]⟩⟩] := by
  constructor
  · exact ((claim_C3_missing_instances
      (JNode.mk (some "t") (some "Top") (some "t.v") (some [])
        [JNode.mk (some "a") (some "u1") none (some ["p"]) []])
      (JNode.mk (some "t") (some "Top") (some "t.v") (some [])
        [JNode.mk (some "b") (some "u2") none (some ["q"]) []])
      none (some "u1")).2.2.1
      (JNode.mk (some "a") (some "u1") none (some ["p"]) []) rfl rfl).1
  · exact ((claim_C3_missing_instances
      (JNode.mk (some "t") (some "Top") (some "t.v") (some [])
        [JNode.mk (some "a") (some "u1") none (some ["p"]) []])
      (JNode.mk (some "t") (some "Top") (some "t.v") (some [])
        [JNode.mk (some "b") (some "u2") none (some ["q"]) []])
      none (some "u2")).2.2.2
      (JNode.mk (some "b") (some "u2") none (some ["q"]) []) rfl rfl).1

/-! ### Claim C4 -/

/-- Expected tree of the first C4 counterexample scenario: a fileless root
with one child. -/
def c4SpecA : JNode :=
  JNode.mk (some "top") (some "Top") (some "") (some [])
    [JNode.mk (some "m") (some "u1") (some "") (some []) []]

/-- Actual tree of the first C4 counterexample scenario: same shape, the
child's module name differs, every `File_path` is empty. -/
def c4ParsedA : JNode :=
  JNode.mk (some "top") (some "Top") (some "") (some [])
    [JNode.mk (some "mX") (some "u1") (some "") (some []) []]

/-- Expected tree of the second C4 counterexample scenario: a root with a
file and no children. -/
def c4SpecB : JNode :=
  JNode.mk (some "top") (some "Top") (some "f.v") (some []) []

/-- Actual tree of the second C4 counterexample scenario: the same root
with one extra child whose `File_path` is present but empty. -/
def c4ParsedB : JNode :=
  JNode.mk (some "top") (some "Top") (some "f.v") (some [])
    [JNode.mk (some "m") (some "u9") (some "") (some []) []]

/-- Counterexample for C4.  First scenario: the record for the mismatching
child pair under a fileless root is tagged `"top.v"` (the module-derived
context of lines 57-59), not the root record's resolved file `"Top Level"`
that the claim's resolution rule would pass down.  Second scenario: the
record for an instance present only in the actual tree whose `File_path`
is present but empty is filed under `""`, not under a resolved file nor the
current file `"f.v"`. -/
theorem claim_C4_counterexample :
    ((find_arch_diffs c4SpecA c4ParsedA none).map DiffRecord.file = ["top.v"]
      ∧ ("top.v" : String) ≠ "Top Level")
  ∧ ((find_arch_diffs c4SpecB c4ParsedB none).map DiffRecord.file = [""]
      ∧ ("" : String) ≠ "f.v") := by
  refine ⟨⟨by decide, by decide⟩, ⟨by decide, by decide⟩⟩

/-- Claim C4 as amended: a record at a matched pair is tagged with the
actual node's file if non-empty, else the non-empty parent context, else
`"Top Level"`; but the context passed down to children is the actual
node's file if non-empty, else `"<module>.v"` derived from the actual (or
else the expected) module name, else `"Unknown.v"`; and a record for an
instance present only in the actual tree is filed under the child's
`File_path` field whenever that field is present — even when it is empty —
falling back to the current context only when the field is absent. -/
theorem claim_C4_amended_file_tagging (s p : JNode) (pf : Option String) :
    ((s.modD ≠ p.modD ∨ s.portsNorm ≠ p.portsNorm) →
       (find_arch_diffs s p pf).head? = some (pairRecord s p pf)
       ∧ (pairRecord s p pf).file =
           (if p.fileD ≠ "" then p.fileD
            else match pf with
              | some f => if f ≠ "" then f else "Top Level"
              | none => "Top Level"))
  ∧ (childContext s p =
       (if p.fileD ≠ "" then p.fileD
        else if p.modD ≠ "" then p.modD ++ ".v"
        else if s.modD ≠ "" then s.modD ++ ".v"
        else "Unknown.v"))
  ∧ (∀ key sc pc, lastWithKey key s.kids = some sc → lastWithKey key p.kids = some pc →
       keyDiffs s p key = find_arch_diffs sc pc (some (childContext s p)))
  ∧ (∀ key pc, lastWithKey key s.kids = none → lastWithKey key p.kids = some pc →
       (keyDiffs s p key).map DiffRecord.file =
         [match pc.filePath? with
          | some f => f
          | none => childContext s p]) := by
  refine ⟨?_, rfl, ?_, ?_⟩
  · intro h
    constructor
    · rw [find_arch_diffs_unfold]
      unfold pairEmission
      rw [if_pos h]
      rfl
    · rfl
  · intro key sc pc hs hp
    unfold keyDiffs
    rw [hs, hp]
  · intro key pc hs hp
    unfold keyDiffs
    rw [hs, hp]
    rfl

/-- Witness for the amended C4 on concrete trees: a mismatching pair with a
non-empty parent context is tagged with the actual node's file; the
recursion equation and the only-in-actual filing rule evaluated at the
counterexample trees. -/
theorem claim_C4_amended_witness :
    (find_arch_diffs (JNode.mk (some "m") (some "u1") (some "") (some []) [])
        (JNode.mk (some "mX") (some "u1") (some "") (some []) [])
        (some "top.v")).head? =
      some (pairRecord (JNode.mk (some "m") (some "u1") (some "") (some []) [])
        (JNode.mk (some "mX") (some "u1") (some "") (some []) []) (some "top.v"))
  ∧ (keyDiffs c4SpecB c4ParsedB (some "u9")).map DiffRecord.file = [""] := by
  constructor
  · exact ((claim_C4_amended_file_tagging _ _ (some "top.v")).1 (by decide)).1
  · have h := (claim_C4_amended_file_tagging c4SpecB c4ParsedB none).2.2.2
      (some "u9") (JNode.mk (some "m") (some "u9") (some "") (some []) [])
      rfl rfl
    exact h

/-! ### Claim C7 -/

/-- Fill in a missing `Module_name` with the default the code reads. -/
def JNode.fillModule : JNode → JNode
  | .mk m i f pt cs => .mk (some (m.getD "")) i f pt cs

/-- Fill in a missing `Port` list with the default the code reads. -/
def JNode.fillPort : JNode → JNode
  | .mk m i f pt cs => .mk m i f (some (pt.getD [])) cs

/-- Counterexample for C7: both inputs lack every field the spec calls
required, yet the comparator completes normally and returns the empty
report — the code never raises a `CompareError` (no such error exists in
the source; `dict.get` defaults every missing field). -/
theorem claim_C7_counterexample :
    find_arch_diffs (JNode.mk none none none none [])
      (JNode.mk none none none none []) none = [] := by
  decide

/-- Claim C7 as amended: the comparator never fails with a `CompareError`
(no such error exists) — inputs missing required fields are processed
normally through the `dict.get` defaults; in particular a missing
`Module_name` or `Port` field behaves exactly as the defaulted empty value
(`""` / `[]`) — this equivalence does not extend to `Instance_name`
(keyed as the Python `None`) or `File_path` (line 76 defaults it to the
current context) — and on well-formed input the comparator never fails:
two structurally empty trees, and even two entirely fieldless trees,
produce the valid empty report. -/
theorem claim_C7_amended_total_on_any_input (fuel : Nat) (s p : JNode) (pf : Option String) :
    findArchDiffsF fuel s.fillModule p.fillModule pf = findArchDiffsF fuel s p pf
  ∧ findArchDiffsF fuel s.fillPort p.fillPort pf = findArchDiffsF fuel s p pf
  ∧ find_arch_diffs (JNode.mk (some "") (some "") (some "") (some []) [])
      (JNode.mk (some "") (some "") (some "") (some []) []) pf = []
  ∧ find_arch_diffs (JNode.mk none none none none [])
      (JNode.mk none none none none []) pf = [] := by
  have hmodM : ∀ n : JNode, n.fillModule.modD = n.modD := by
    intro n
    cases n
    rfl
  have hinstM : ∀ n : JNode, n.fillModule.instD = n.instD := by
    intro n
    cases n
    rfl
  have hfileM : ∀ n : JNode, n.fillModule.fileD = n.fileD := by
    intro n
    cases n
    rfl
  have hfilePM : ∀ n : JNode, n.fillModule.filePath? = n.filePath? := by
    intro n
    cases n
    rfl
  have hportM : ∀ n : JNode, n.fillModule.portD = n.portD := by
    intro n
    cases n
    rfl
  have hkidsM : ∀ n : JNode, n.fillModule.kids = n.kids := by
    intro n
    cases n
    rfl
  have hmodP : ∀ n : JNode, n.fillPort.modD = n.modD := by
    intro n
    cases n
    rfl
  have hinstP : ∀ n : JNode, n.fillPort.instD = n.instD := by
    intro n
    cases n
    rfl
  have hfileP : ∀ n : JNode, n.fillPort.fileD = n.fileD := by
    intro n
    cases n
    rfl
  have hfilePP : ∀ n : JNode, n.fillPort.filePath? = n.filePath? := by
    intro n
    cases n
    rfl
  have hportP : ∀ n : JNode, n.fillPort.portD = n.portD := by
    intro n
    cases n
    · rename_i pt _
      cases pt <;> rfl
  have hkidsP : ∀ n : JNode, n.fillPort.kids = n.kids := by
    intro n
    cases n
    rfl
  refine ⟨?_, ?_, ?_, ?_⟩
  · cases fuel with
    | zero => rfl
    | succ a =>
      rw [findArchDiffsF_succ, findArchDiffsF_succ]
      have hpe : pairEmission s.fillModule p.fillModule pf = pairEmission s p pf := by
        unfold pairEmission pairRecord resolveCurrentNodeFile JNode.portsNorm
        rw [hmodM, hmodM, hinstM, hinstM, hfileM, hportM, hportM]
      have hcc : childContext s.fillModule p.fillModule = childContext s p := by
        unfold childContext
        rw [hmodM, hmodM, hfileM]
      rw [hpe, hkidsM, hkidsM, hcc]
  · cases fuel with
    | zero => rfl
    | succ a =>
      rw [findArchDiffsF_succ, findArchDiffsF_succ]
      have hpe : pairEmission s.fillPort p.fillPort pf = pairEmission s p pf := by
        unfold pairEmission pairRecord resolveCurrentNodeFile JNode.portsNorm
        rw [hmodP, hmodP, hinstP, hinstP, hfileP, hportP, hportP]
      have hcc : childContext s.fillPort p.fillPort = childContext s p := by
        unfold childContext
        rw [hmodP, hmodP, hfileP]
      rw [hpe, hkidsP, hkidsP, hcc]
  · rfl
  · rfl

/-! ### Claim C5 — the Extractor's JSON tree walk -/

/-- One port-to-signal connection of an instance
(`{'port': .., 'connected_to': [..]}` in `extractor.py`). -/
structure Conn where
  port : String
  connected_to : List String

/-- One submodule instantiation (`{'name': .., 'type': ..}`). -/
structure SubmoduleRef where
  name : String
  type : String

/-- The per-module entry of `hierarchy_data['hierarchy']`.  Only the fields
`build_structure` reads are carried. -/
structure ModuleInfo where
  submodules : List SubmoduleRef
  connections : List (String × List Conn)
  file_path : String

/-- The `hierarchy_data` record consumed by the export functions.  The
`ports` table is projected to the port names, which is all
`build_structure` reads from it (`[p['name'] for p in ...]`). -/
structure HierData where
  hierarchy : List (String × ModuleInfo)
  ports : List (String × List String)

/-- `f"{conn['port']} : {', '.join(conn['connected_to'])}"`. -/
def connEntry (c : Conn) : String :=
  c.port ++ " : " ++ String.intercalate ", " c.connected_to

/-- Fuel-indexed embedding of `extractor.build_structure` (the worker of
`export_hierarchy_to_json`).  The Python function recurses into every
submodule type with no visited tracking; the embedding returns `none`
exactly when no finite recursion depth suffices to complete the walk, so
`(∀ fuel, build_structureF fuel .. = none)` renders non-termination. -/
def build_structureF : Nat → HierData → String → String → Option (List Conn) → Option JNode
  | 0, _, _, _, _ => none
  | fuel+1, h, module_name, instance_name, conns =>
    let info? := List.lookup module_name h.hierarchy
    let file_path := match info? with
      | some i => i.file_path
      | none => ""
    let port : List String := match conns with
      | none =>
        match List.lookup module_name h.ports with
        | some ps => ps
        | none => []
      | some cs => cs.map connEntry
    let kids? : Option (List JNode) := match info? with
      | none => some []
      | some info =>
        info.submodules.mapM (fun sm =>
          build_structureF fuel h sm.type sm.name
            (some ((List.lookup sm.name info.connections).getD [])))
    kids?.map (fun cs =>
      JNode.mk (some module_name) (some instance_name) (some file_path) (some port) cs)

theorem build_structureF_succ (fuel : Nat) (h : HierData)
    (module_name instance_name : String) (conns : Option (List Conn)) :
    build_structureF (fuel+1) h module_name instance_name conns =
      (let info? := List.lookup module_name h.hierarchy
       let file_path := match info? with
         | some i => i.file_path
         | none => ""
       let port : List String := match conns with
         | none =>
           match List.lookup module_name h.ports with
           | some ps => ps
           | none => []
         | some cs => cs.map connEntry
       let kids? : Option (List JNode) := match info? with
         | none => some []
         | some info =>
           info.submodules.mapM (fun sm =>
             build_structureF fuel h sm.type sm.name
               (some ((List.lookup sm.name info.connections).getD [])))
       kids?.map (fun cs =>
         JNode.mk (some module_name) (some instance_name) (some file_path) (some port) cs)) :=
  rfl

/-- The entry of module `a` in the self-instantiating design. -/
def cycInfo : ModuleInfo :=
  { submodules := [⟨"u", "a"⟩], connections := [], file_path := "a.v" }

/-- A minimal extracted design in which module `a` instantiates itself. -/
def cycHier : HierData :=
  { hierarchy := [("a", cycInfo)], ports := [("a", ["p"])] }

/-- Claim C5 (code bug): on the self-instantiating design, the JSON-export
tree walk of the Extractor admits no finite completion — `build_structure`
recurses into module `a` from inside `a` with no visited tracking, so every
recursion depth is exhausted and the walk never terminates, contradicting
the required truncation at the repeated occurrence. -/
theorem claim_C5_json_walk_diverges_on_self_instantiation :
    ∀ fuel (instance_name : String) (conns : Option (List Conn)),
      build_structureF fuel cycHier "a" instance_name conns = none := by
  intro fuel
  induction fuel with
  | zero =>
    intro instance_name conns
    rfl
  | succ m ih =>
    intro instance_name conns
    rw [build_structureF_succ]
    have hlook : List.lookup "a" cycHier.hierarchy = some cycInfo := rfl
    simp only [hlook, cycInfo, List.mapM_cons, List.lookup_nil, Option.getD_none]
    have hrec : build_structureF m cycHier "a" "u" (some []) = none := ih "u" (some [])
    rw [hrec]
    cases conns <;> rfl

/-! ### Claim C6 — top-module detection in `run_extract` -/

/-- Every type appearing as an instantiated submodule type anywhere in the
flat module list (`instantiated_modules` in `run_extract`, with each module
given by its name and the list of the types it instantiates). -/
def instTypes (modules : List (String × List String)) : List String :=
  (modules.map Prod.snd).foldr (fun ts acc => ts ++ acc) []

/-- `list(all_modules - instantiated_modules)`: the modules never appearing
as an instantiated type.  The set difference of Python sets is embedded as
a duplicate-free filtered list; its enumeration order is fixed by the
embedding, while Python's is unspecified (no claim below depends on it
except through head-of-singleton). -/
def rootMods (modules : List (String × List String)) : List String :=
  ((modules.map Prod.fst).dedup).filter (fun m => decide (m ∉ instTypes modules))

/-- `base_name.replace('V', '', 1)`: drop the first `V`. -/
def removeFirstV : List Char → List Char
  | [] => []
  | c :: cs => if c = 'V' then cs else c :: removeFirstV cs

/-- `s.lower()` on the character list (ASCII lowering, as in the module
names this tool handles). -/
def lowerData (s : String) : List Char := s.data.map Char.toLower

/-- Whether the first list is an initial segment of the second. -/
def listStartsWith : List Char → List Char → Bool
  | [], _ => true
  | _ :: _, [] => false
  | a :: as, b :: bs => decide (a = b) && listStartsWith as bs

/-- Python's substring test `needle in hay`. -/
def subList (needle : List Char) : List Char → Bool
  | [] => needle.isEmpty
  | c :: rest => listStartsWith needle (c :: rest) || subList needle rest

/-- `[m for m in hierarchy if module_prefix.lower() in m.lower()]`. -/
def simCandidates (modules : List (String × List String)) (base_name : String) : List String :=
  (modules.map Prod.fst).filter
    (fun m => subList (lowerData (String.mk (removeFirstV base_name.data))) (lowerData m))

/-- The top-module choice of `run_extract` (lines 292-315): the flagged
list if non-empty, else the never-instantiated modules if any, else the
name-similarity candidates if any, else all module names — and then the
first element of the stage that applied (`top_modules[0]`), `none` when
even the final stage is empty. -/
def detect_top (flagged : List String) (modules : List (String × List String))
    (base_name : String) : Option String :=
  let tops1 := flagged
  let tops2 := if tops1.isEmpty then rootMods modules else tops1
  let tops3 :=
    if tops2.isEmpty then
      let cands := simCandidates modules base_name
      if cands.isEmpty then modules.map Prod.fst else cands
    else tops2
  tops3.head?

/-- Counterexample for C6: with no flagged module, two never-instantiated
modules `x`, `y`, and an instantiated module `z` that is the only
name-similarity candidate for base name `Vz`, the code selects a member of
the never-instantiated set (here `x`) and never consults the similarity
candidates; the claim's reading — name-similarity is used whenever the
never-instantiated set does not contain exactly one module — would select
`z`. -/
theorem claim_C6_counterexample :
    detect_top [] [("x", ["z"]), ("y", ["z"]), ("z", [])] "Vz" = some "x"
  ∧ rootMods [("x", ["z"]), ("y", ["z"]), ("z", [])] = ["x", "y"]
  ∧ simCandidates [("x", ["z"]), ("y", ["z"]), ("z", [])] "Vz" = ["z"]
  ∧ ("x" : String) ≠ "z" := by
  refine ⟨by decide, by decide, by decide, by decide⟩

theorem foldr_append_perm {α : Type} {ls₁ ls₂ : List (List α)}
    (h : List.Perm ls₁ ls₂) :
    List.Perm (ls₁.foldr (fun ts acc => ts ++ acc) [])
      (ls₂.foldr (fun ts acc => ts ++ acc) []) := by
  induction h with
  | nil => exact List.Perm.refl _
  | cons x _ ih =>
    exact ih.append_left x
  | swap x y l =>
    simp only [List.foldr_cons]
    have h1 : List.Perm ((y ++ x) ++ l.foldr (fun ts acc => ts ++ acc) [])
        ((x ++ y) ++ l.foldr (fun ts acc => ts ++ acc) []) :=
      (List.perm_append_comm).append_right _
    rw [List.append_assoc, List.append_assoc] at h1
    exact h1
  | trans _ _ ih₁ ih₂ => exact ih₁.trans ih₂

theorem instTypes_mem_iff {modules modules' : List (String × List String)}
    (h : List.Perm modules' modules) (m : String) :
    m ∈ instTypes modules' ↔ m ∈ instTypes modules :=
  (foldr_append_perm (h.map Prod.snd)).mem_iff

theorem rootMods_perm {modules modules' : List (String × List String)}
    (h : List.Perm modules' modules) :
    List.Perm (rootMods modules') (rootMods modules) := by
  unfold rootMods
  have h1 : (modules'.map Prod.fst).dedup.filter
        (fun m => decide (m ∉ instTypes modules')) =
      (modules'.map Prod.fst).dedup.filter
        (fun m => decide (m ∉ instTypes modules)) := by
    apply List.filter_congr
    intro m _
    simp only [decide_eq_decide]
    rw [instTypes_mem_iff h]
  rw [h1]
  exact ((h.map Prod.fst).dedup).filter _

/-- Claim C6 as amended: a flagged module is chosen first; otherwise, when
the never-instantiated set is non-empty, the choice is its first element —
in particular, when that set contains exactly one module, that module is
selected regardless of the ordering of the input module list; the
name-similarity candidates are consulted only when the never-instantiated
set is empty; and when they too are empty, the first of all known module
names is chosen. -/
theorem claim_C6_amended_top_detection (flagged : List String)
    (modules modules' : List (String × List String)) (base : String) :
    (∀ t ts, flagged = t :: ts → detect_top flagged modules base = some t)
  ∧ (flagged = [] → rootMods modules ≠ [] →
       detect_top flagged modules base = (rootMods modules).head?)
  ∧ (flagged = [] → ∀ r, rootMods modules = [r] → List.Perm modules' modules →
       detect_top flagged modules' base = some r)
  ∧ (flagged = [] → rootMods modules = [] →
       detect_top flagged modules base =
         (if (simCandidates modules base).isEmpty then (modules.map Prod.fst).head?
          else (simCandidates modules base).head?)) := by
  refine ⟨?_, ?_, ?_, ?_⟩
  · intro t ts ht
    subst ht
    rfl
  · intro hf hr
    subst hf
    unfold detect_top
    simp only [List.isEmpty_nil, if_true]
    rw [if_neg (by simpa [List.isEmpty_iff] using hr)]
  · intro hf r hr hperm
    subst hf
    have hr' : rootMods modules' = [r] :=
      List.perm_singleton.mp (hr ▸ rootMods_perm hperm)
    unfold detect_top
    simp only [List.isEmpty_nil, if_true, hr']
    rfl
  · intro hf hr
    subst hf
    unfold detect_top
    simp only [List.isEmpty_nil, if_true, hr]
    by_cases hc : (simCandidates modules base).isEmpty = true
    · rw [if_pos hc, if_pos hc]
    · rw [if_neg hc, if_neg hc]

/-- Witness for the amended C6: a flagged module wins; a unique
never-instantiated module (`a`) is selected from both orderings of the
module list; an empty never-instantiated set falls through to the
name-similarity stage. -/
theorem claim_C6_amended_witness :
    detect_top ["T"] [("a", []), ("b", [])] "Vx" = some "T"
  ∧ detect_top [] [("b", []), ("a", ["b"])] "Vx" = some "a"
  ∧ detect_top [] [("a", ["b"]), ("b", [])] "Vx" = some "a"
  ∧ detect_top [] [("vx", ["vx"]), ("q", ["q"])] "Vx" = some "vx" := by
  refine ⟨?_, ?_, ?_, ?_⟩
  · exact (claim_C6_amended_top_detection ["T"] [("a", []), ("b", [])]
      [("a", []), ("b", [])] "Vx").1 "T" [] rfl
  · exact (claim_C6_amended_top_detection []
      [("a", ["b"]), ("b", [])] [("b", []), ("a", ["b"])] "Vx").2.2.1
      rfl "a" (by decide) (by decide)
  · exact (claim_C6_amended_top_detection []
      [("a", ["b"]), ("b", [])] [("a", ["b"]), ("b", [])] "Vx").2.2.1
      rfl "a" (by decide) (List.Perm.refl _)
  · have h := (claim_C6_amended_top_detection []
      [("vx", ["vx"]), ("q", ["q"])] [("vx", ["vx"]), ("q", ["q"])] "Vx").2.2.2
      rfl (by decide)
    rw [h]
    decide

/-! ### Claims C8 and C9 — the Repair Orchestrator (`archer.main`)

External effects are embedded as oracles: per-iteration outcomes of the
RTL parse, the comparison, the diff-file read and the simulation, and
per-diff outcomes of the file lookup and the repair service.  The on-disk
`.bak` state is the only state the loop itself mutates; it is threaded as
the list of source files whose backup copy exists.  The run is rendered as
the list of externally observable events: backup creations, file
overwrites, and invocations of the build/simulation harness. -/

/-- Externally observable orchestrator events. -/
inductive Ev where
  | backup (f : String)
  | fwrite (f : String)
  | validate
deriving DecidableEq, Repr

/-- One entry of the Diff Report as the repair loop sees it: the `file`
field of the record (`None` embeds an absent field), whether that path
exists on disk, and the repair service's reply for it (`none` embeds a
failed call). -/
structure DiffTask where
  file? : Option String
  fileExists : Bool
  fix? : Option String
deriving Repr

/-- The oracle outcomes of one iteration of `main`'s loop. -/
structure IterIn where
  rtlOk : Bool
  cmpOk : Bool
  diffFileExists : Bool
  diffs : List DiffTask
  simPass : Bool
deriving Repr

/-- `if not file_path or not os.path.exists(file_path): continue`. -/
def skipDiff (d : DiffTask) : Bool :=
  match d.file? with
  | none => true
  | some f => decide (f = "") || !d.fileExists

/-- The repair reply actually applied: `if new_content:` — a `None` reply
and an empty reply are both discarded. -/
def fixContent? (d : DiffTask) : Option String :=
  match d.fix? with
  | some c => if c = "" then none else some c
  | none => none

/-- Process one diff entry (lines 177-206 of `archer.py`): skip entries
with no usable path or no usable repair; otherwise create the backup if
and only if none exists, then overwrite the file.  Returns the new backup
state, the modified file (if any), and the emitted events. -/
def processDiff (bak : List String) (d : DiffTask) :
    List String × Option String × List Ev :=
  if skipDiff d then (bak, none, [])
  else match d.file?, fixContent? d with
    | some f, some _ =>
        if f ∈ bak then (bak, some f, [Ev.fwrite f])
        else (f :: bak, some f, [Ev.backup f, Ev.fwrite f])
    | _, _ => (bak, none, [])

/-- The Repair state: fold `processDiff` over the Diff Report in order,
collecting the `modified_files` list and the events. -/
def repairFold : List String → List DiffTask → List String × List String × List Ev
  | bak, [] => (bak, [], [])
  | bak, d :: ds =>
    let r := processDiff bak d
    let rest := repairFold r.1 ds
    (rest.1,
     (match r.2.1 with
      | some f => f :: rest.2.1
      | none => rest.2.1),
     r.2.2 ++ rest.2.2)

/-- One iteration of `main`'s loop: abort on RTL/compare/diff-file
failure; with an empty report run the simulation and stop either way; with
a non-empty report repair, and validate only when at least one file was
modified, continuing only on a failed simulation.  Returns the new backup
state, the events, and whether the loop continues. -/
def runIter (bak : List String) (it : IterIn) : List String × List Ev × Bool :=
  if !it.rtlOk then (bak, [], false)
  else if !it.cmpOk then (bak, [], false)
  else if !it.diffFileExists then (bak, [], false)
  else match it.diffs with
    | [] => (bak, [Ev.validate], false)
    | _ :: _ =>
      let r := repairFold bak it.diffs
      if r.2.1.isEmpty then (r.1, r.2.2, false)
      else (r.1, r.2.2 ++ [Ev.validate], !it.simPass)

/-- The bounded loop (`for i in range(MAX_ITER)`): the iteration oracles
are a list of length `MAX_ITER`.  Returns the event trace and the final
backup state. -/
def runLoopSt : List String → List IterIn → List Ev × List String
  | bak, [] => ([], bak)
  | bak, it :: rest =>
    let r := runIter bak it
    if r.2.2 then
      let rl := runLoopSt r.1 rest
      (r.2.1 ++ rl.1, rl.2)
    else (r.2.1, r.1)

/-- The observable trace of a whole run. -/
def runLoop (bak : List String) (its : List IterIn) : List Ev :=
  (runLoopSt bak its).1

theorem processDiff_no_validate (bak : List String) (d : DiffTask) :
    Ev.validate ∉ (processDiff bak d).2.2 := by
  unfold processDiff
  by_cases hs : skipDiff d = true
  · rw [if_pos hs]
    simp
  · rw [if_neg hs]
    cases d.file? with
    | none => simp
    | some f =>
      cases fixContent? d with
      | none => simp
      | some c =>
        by_cases hb : f ∈ bak
        · simp [hb]
        · simp [hb]

theorem repairFold_no_validate (bak : List String) (ds : List DiffTask) :
    Ev.validate ∉ (repairFold bak ds).2.2 := by
  induction ds generalizing bak with
  | nil => simp [repairFold]
  | cons d ds ih =>
    unfold repairFold
    intro hmem
    rcases List.mem_append.mp hmem with h | h
    · exact processDiff_no_validate bak d h
    · exact ih (processDiff bak d).1 h

/-- Claim C8: an iteration that enters Repair (all preceding stages
succeeded and the report is non-empty) and modifies zero files ends the
run right there — its events are exactly the repair events, the remaining
iterations never run, and the build/simulation harness is not invoked. -/
theorem claim_C8_non_progress_stops_without_validate
    (bak : List String) (it : IterIn) (rest : List IterIn)
    (h1 : it.rtlOk = true) (h2 : it.cmpOk = true) (h3 : it.diffFileExists = true)
    (h4 : it.diffs ≠ []) (h5 : (repairFold bak it.diffs).2.1 = []) :
    runLoop bak (it :: rest) = (repairFold bak it.diffs).2.2
  ∧ Ev.validate ∉ (repairFold bak it.diffs).2.2 := by
  constructor
  · unfold runLoop runLoopSt runIter
    rw [h1, h2, h3]
    simp only [Bool.not_true, Bool.false_eq_true, if_false]
    cases hd : it.diffs with
    | nil => exact absurd hd h4
    | cons d ds =>
      rw [hd] at h5
      have hempty : (repairFold bak (d :: ds)).2.1.isEmpty = true := by
        rw [h5]
        rfl
      simp only [hempty, if_true, Bool.false_eq_true, if_false]
  · exact repairFold_no_validate bak it.diffs

/-- Witness for C8: one iteration whose only diff has an unresolvable file
and whose second diff gets no repair output — no validation happens and
the trailing iteration is never entered. -/
theorem claim_C8_witness :
    runLoop []
      [⟨true, true, true, [⟨none, false, some "body"⟩, ⟨some "m.v", true, none⟩], true⟩,
       ⟨true, true, true, [], true⟩] = []
  ∧ Ev.validate ∉ ([] : List Ev) := by
  have h := claim_C8_non_progress_stops_without_validate []
    ⟨true, true, true, [⟨none, false, some "body"⟩, ⟨some "m.v", true, none⟩], true⟩
    [⟨true, true, true, [], true⟩] rfl rfl rfl (List.cons_ne_nil _ _) (by decide)
  constructor
  · exact h.1
  · simp

/-- The events concerning file `f`: its backup creation and its
overwrites. -/
def forFile (f : String) (e : Ev) : Bool :=
  decide (e = Ev.backup f) || decide (e = Ev.fwrite f)

/-- Every event of the list is an overwrite of `f`. -/
def writesOnly (f : String) (l : List Ev) : Prop := ∀ e ∈ l, e = Ev.fwrite f

/-- The backup discipline for file `f` over its projected event list: when
a backup of `f` already exists, only overwrites ever occur (the backup is
never rewritten); otherwise either `f` is never touched, or the very first
event on `f` is the single backup creation, followed only by
overwrites. -/
def bakDiscipline (inBak : Bool) (f : String) (l : List Ev) : Prop :=
  if inBak then writesOnly f l
  else l = [] ∨ ∃ ws, l = Ev.backup f :: ws ∧ writesOnly f ws

/-- A code segment taking the backup state `bakIn` to `bakOut` while
emitting `evs` respects the backup discipline for `f`, records the backup
in the state exactly when it creates it, and only ever writes `f` once a
backup of `f` exists. -/
def seqOk (f : String) (bakIn : List String) (evs : List Ev) (bakOut : List String) : Prop :=
  bakDiscipline (decide (f ∈ bakIn)) f (evs.filter (forFile f))
  ∧ (f ∈ bakOut ↔ (f ∈ bakIn ∨ Ev.backup f ∈ evs))
  ∧ (Ev.fwrite f ∈ evs → f ∈ bakOut)

theorem seqOk_nil (f : String) (bak : List String) : seqOk f bak [] bak := by
  refine ⟨?_, by simp, by simp⟩
  unfold bakDiscipline
  by_cases hb : f ∈ bak
  · simp [hb, writesOnly]
  · simp [hb]

theorem seqOk_validate (f : String) (bak : List String) : seqOk f bak [Ev.validate] bak := by
  refine ⟨?_, by simp, by simp⟩
  have : ([Ev.validate].filter (forFile f)) = [] := by
    simp [forFile]
  rw [this]
  unfold bakDiscipline
  by_cases hb : f ∈ bak
  · simp [hb, writesOnly]
  · simp [hb]

theorem seqOk_comp {f : String} {b1 b2 b3 : List String} {e1 e2 : List Ev}
    (h1 : seqOk f b1 e1 b2) (h2 : seqOk f b2 e2 b3) : seqOk f b1 (e1 ++ e2) b3 := by
  obtain ⟨d1, i1, w1⟩ := h1
  obtain ⟨d2, i2, w2⟩ := h2
  refine ⟨?_, ?_, ?_⟩
  · rw [List.filter_append]
    by_cases hb1 : f ∈ b1
    · have hb2 : f ∈ b2 := i1.mpr (Or.inl hb1)
      have d1' : writesOnly f (e1.filter (forFile f)) := by
        simpa [bakDiscipline, hb1] using d1
      have d2' : writesOnly f (e2.filter (forFile f)) := by
        simpa [bakDiscipline, hb2] using d2
      simp only [bakDiscipline, hb1, decide_True, if_true]
      intro e he
      rcases List.mem_append.mp he with h | h
      · exact d1' e h
      · exact d2' e h
    · have d1' : e1.filter (forFile f) = [] ∨
          ∃ ws, e1.filter (forFile f) = Ev.backup f :: ws ∧ writesOnly f ws := by
        simpa [bakDiscipline, hb1] using d1
      simp only [bakDiscipline, hb1, decide_False, if_false]
      rcases d1' with hnil | ⟨ws, hcons, hws⟩
      · have hbk1 : Ev.backup f ∉ e1 := by
          intro hmem
          have hf : Ev.backup f ∈ e1.filter (forFile f) :=
            List.mem_filter.mpr ⟨hmem, by simp [forFile]⟩
          rw [hnil] at hf
          cases hf
        have hb2 : f ∉ b2 := fun h => (i1.mp h).elim hb1 hbk1
        have d2' : e2.filter (forFile f) = [] ∨
            ∃ ws, e2.filter (forFile f) = Ev.backup f :: ws ∧ writesOnly f ws := by
          simpa [bakDiscipline, hb2] using d2
        rw [hnil, List.nil_append]
        exact d2'
      · have hbk1 : Ev.backup f ∈ e1 := by
          have hf : Ev.backup f ∈ e1.filter (forFile f) := by
            rw [hcons]
            exact List.mem_cons_self _ _
          exact (List.mem_filter.mp hf).1
        have hb2 : f ∈ b2 := i1.mpr (Or.inr hbk1)
        have d2' : writesOnly f (e2.filter (forFile f)) := by
          simpa [bakDiscipline, hb2] using d2
        right
        refine ⟨ws ++ e2.filter (forFile f), by rw [hcons, List.cons_append], ?_⟩
        intro e he
        rcases List.mem_append.mp he with h | h
        · exact hws e h
        · exact d2' e h
  · rw [i2, i1, List.mem_append]
    tauto
  · intro hw
    rcases List.mem_append.mp hw with h | h
    · exact i2.mpr (Or.inl (w1 h))
    · exact w2 h

theorem seqOk_processDiff (bak : List String) (d : DiffTask) (f : String) :
    seqOk f bak (processDiff bak d).2.2 (processDiff bak d).1 := by
  unfold processDiff
  by_cases hs : skipDiff d = true
  · rw [if_pos hs]
    exact seqOk_nil f bak
  · rw [if_neg hs]
    cases hfile : d.file? with
    | none => exact seqOk_nil f bak
    | some g =>
      cases hfix : fixContent? d with
      | none => exact seqOk_nil f bak
      | some c =>
        show seqOk f bak
          (if g ∈ bak then (bak, some g, [Ev.fwrite g])
           else (g :: bak, some g, [Ev.backup g, Ev.fwrite g])).2.2
          (if g ∈ bak then (bak, some g, [Ev.fwrite g])
           else (g :: bak, some g, [Ev.backup g, Ev.fwrite g])).1
        by_cases hb : g ∈ bak
        · rw [if_pos hb]
          show seqOk f bak [Ev.fwrite g] bak
          by_cases hgf : g = f
          · subst hgf
            refine ⟨?_, by simp, fun _ => hb⟩
            have hfe : ([Ev.fwrite g].filter (forFile g)) = [Ev.fwrite g] := by
              simp [forFile]
            rw [hfe]
            simp only [bakDiscipline, hb, decide_True, if_true]
            intro e he
            simp at he
            exact he
          · refine ⟨?_, by simp [Ne.symm hgf], ?_⟩
            · have hfe : ([Ev.fwrite g].filter (forFile f)) = [] := by
                simp [forFile, hgf]
              rw [hfe]
              unfold bakDiscipline
              by_cases hf : f ∈ bak
              · simp [hf, writesOnly]
              · simp [hf]
            · intro h
              simp at h
              exact absurd h.symm hgf
        · rw [if_neg hb]
          show seqOk f bak [Ev.backup g, Ev.fwrite g] (g :: bak)
          by_cases hgf : g = f
          · subst hgf
            refine ⟨?_, by simp, fun _ => List.mem_cons_self _ _⟩
            have hfe : ([Ev.backup g, Ev.fwrite g].filter (forFile g)) =
                [Ev.backup g, Ev.fwrite g] := by
              simp [forFile]
            rw [hfe]
            simp only [bakDiscipline, hb, decide_False, if_false]
            right
            refine ⟨[Ev.fwrite g], rfl, ?_⟩
            intro e he
            simp at he
            exact he
          · refine ⟨?_, ?_, ?_⟩
            · have hfe : ([Ev.backup g, Ev.fwrite g].filter (forFile f)) = [] := by
                simp [forFile, hgf]
              rw [hfe]
              unfold bakDiscipline
              by_cases hf : f ∈ bak
              · simp [hf, writesOnly]
              · simp [hf]
            · simp [List.mem_cons, Ne.symm hgf]
            · intro h
              simp at h
              exact absurd h.symm hgf

theorem seqOk_repairFold (bak : List String) (ds : List DiffTask) (f : String) :
    seqOk f bak (repairFold bak ds).2.2 (repairFold bak ds).1 := by
  induction ds generalizing bak with
  | nil => exact seqOk_nil f bak
  | cons d ds ih =>
    unfold repairFold
    exact seqOk_comp (seqOk_processDiff bak d f) (ih (processDiff bak d).1)

theorem seqOk_runIter (bak : List String) (it : IterIn) (f : String) :
    seqOk f bak (runIter bak it).2.1 (runIter bak it).1 := by
  unfold runIter
  by_cases h1 : it.rtlOk
  case neg =>
    simp only [h1, Bool.not_false, if_true]
    exact seqOk_nil f bak
  case pos =>
    simp only [h1, Bool.not_true, Bool.false_eq_true, if_false]
    by_cases h2 : it.cmpOk
    case neg =>
      simp only [h2, Bool.not_false, if_true]
      exact seqOk_nil f bak
    case pos =>
      simp only [h2, Bool.not_true, Bool.false_eq_true, if_false]
      by_cases h3 : it.diffFileExists
      case neg =>
        simp only [h3, Bool.not_false, if_true]
        exact seqOk_nil f bak
      case pos =>
        simp only [h3, Bool.not_true, Bool.false_eq_true, if_false]
        cases it.diffs with
        | nil => exact seqOk_validate f bak
        | cons d ds =>
          by_cases hm : ((repairFold bak (d :: ds)).2.1).isEmpty = true
          · simp only [hm, if_true]
            exact seqOk_repairFold bak (d :: ds) f
          · simp only [hm, Bool.false_eq_true, if_false]
            exact seqOk_comp (seqOk_repairFold bak (d :: ds) f)
              (seqOk_validate f (repairFold bak (d :: ds)).1)

theorem seqOk_runLoopSt (bak : List String) (its : List IterIn) (f : String) :
    seqOk f bak (runLoopSt bak its).1 (runLoopSt bak its).2 := by
  induction its generalizing bak with
  | nil => exact seqOk_nil f bak
  | cons it rest ih =>
    unfold runLoopSt
    by_cases hc : (runIter bak it).2.2 = true
    · simp only [hc, if_true]
      exact seqOk_comp (seqOk_runIter bak it f) (ih (runIter bak it).1)
    · simp only [hc, if_false]
      exact seqOk_runIter bak it f

theorem countP_eq_countP_filter {α : Type} (p q : α → Bool) (l : List α)
    (h : ∀ a, p a = true → q a = true) :
    l.countP p = (l.filter q).countP p := by
  induction l with
  | nil => rfl
  | cons x xs ih =>
    by_cases hq : q x = true
    · rw [List.filter_cons_of_pos hq, List.countP_cons, List.countP_cons, ih]
    · have hp : p x = false := by
        cases hpx : p x
        · rfl
        · exact absurd (h x hpx) hq
      rw [List.filter_cons_of_neg hq, List.countP_cons, hp, ih]
      simp

theorem discipline_countP_le_one {inBak : Bool} {f : String} {l : List Ev}
    (h : bakDiscipline inBak f l) :
    l.countP (fun e => decide (e = Ev.backup f)) ≤ 1 := by
  unfold bakDiscipline at h
  cases inBak with
  | true =>
    simp only [if_true] at h
    have : l.countP (fun e => decide (e = Ev.backup f)) = 0 := by
      rw [List.countP_eq_zero]
      intro e he
      rw [h e he]
      simp
    omega
  | false =>
    simp only [Bool.false_eq_true, if_false] at h
    rcases h with h | ⟨ws, hcons, hws⟩
    · rw [h]
      simp
    · rw [hcons, List.countP_cons]
      have : ws.countP (fun e => decide (e = Ev.backup f)) = 0 := by
        rw [List.countP_eq_zero]
        intro e he
        rw [hws e he]
        simp
      simp [this]

/-- Claim C9: across a whole run, the events on any source file `f` obey
the first-touch backup discipline — when no backup of `f` pre-exists, the
first event on `f` (if any) is the single backup creation, every later
event on `f` is an overwrite, and an already-existing backup is never
written again; consequently at most one backup of `f` is ever created, and
none at all when `f.bak` pre-existed, so the content saved at first touch
stays intact for the rest of the run. -/
theorem claim_C9_first_touch_backup (bak : List String) (its : List IterIn) (f : String) :
    bakDiscipline (decide (f ∈ bak)) f ((runLoop bak its).filter (forFile f))
  ∧ (runLoop bak its).countP (fun e => decide (e = Ev.backup f)) ≤ 1
  ∧ (f ∈ bak → Ev.backup f ∉ runLoop bak its) := by
  have hseq := seqOk_runLoopSt bak its f
  obtain ⟨hd, hi, hw⟩ := hseq
  refine ⟨hd, ?_, ?_⟩
  · rw [countP_eq_countP_filter (fun e => decide (e = Ev.backup f)) (forFile f)
      (runLoop bak its) (by intro a ha; simp [forFile]; left; exact of_decide_eq_true ha)]
    exact discipline_countP_le_one hd
  · intro hb hmem
    have hdisc : writesOnly f ((runLoop bak its).filter (forFile f)) := by
      simpa [bakDiscipline, hb] using hd
    have hfmem : Ev.backup f ∈ (runLoop bak its).filter (forFile f) :=
      List.mem_filter.mpr ⟨hmem, by simp [forFile]⟩
    have := hdisc _ hfmem
    cases this

/-- Witness for C9: two repairs of the same file in one iteration create
one backup before the first overwrite and none before the second; with a
pre-existing backup no backup event occurs at all. -/
theorem claim_C9_witness :
    runLoop []
        [⟨true, true, true,
          [⟨some "m.v", true, some "x"⟩, ⟨some "m.v", true, some "y"⟩], true⟩] =
      [Ev.backup "m.v", Ev.fwrite "m.v", Ev.fwrite "m.v", Ev.validate]
  ∧ (runLoop []
        [⟨true, true, true,
          [⟨some "m.v", true, some "x"⟩, ⟨some "m.v", true, some "y"⟩], true⟩]).countP
      (fun e => decide (e = Ev.backup "m.v")) ≤ 1
  ∧ Ev.backup "m.v" ∉ runLoop ["m.v"]
        [⟨true, true, true, [⟨some "m.v", true, some "x"⟩], true⟩] := by
  refine ⟨by decide, ?_, ?_⟩
  · exact (claim_C9_first_touch_backup []
      [⟨true, true, true,
        [⟨some "m.v", true, some "x"⟩, ⟨some "m.v", true, some "y"⟩], true⟩] "m.v").2.1
  · exact (claim_C9_first_touch_backup ["m.v"]
      [⟨true, true, true, [⟨some "m.v", true, some "x"⟩], true⟩] "m.v").2.2
      (by simp)
